import Mathlib

/-!
Shallow embedding of `web_report.py` (MT-Python-Task): the page-content
analysis pipeline — visibility classification (`is_visible`), text
extraction and normalization (`filter_content`), word tallying
(`word_tally`), the top-five ranking, metadata/keyword reconciliation
(`get_meta` and the keyword loop of `run_report`), and the title/size
handling of `run_report`.

Python strings are modelled as Lean `String` (a structure over
`List Char`); Python `dict` (which preserves insertion order) as an
association list `List (String × Nat)` updated in place; code that can
raise an exception (attribute access on `None`) returns `Option`.
-/

/-! ## Python string primitives -/

/-- The whitespace characters stripped by Python `str.strip()` (ASCII part,
which is all the source ever feeds it). -/
def isPySpace (c : Char) : Bool :=
  c == ' ' || c == '\t' || c == '\n' || c == '\r' || c == '\x0b' || c == '\x0c'

/-- Python `str.strip()` on the character list: drop leading and trailing
whitespace. -/
def pyStripL (cs : List Char) : List Char :=
  ((cs.dropWhile isPySpace).reverse.dropWhile isPySpace).reverse

/-- Python `str.strip()`. -/
def pyStrip (s : String) : String :=
  ⟨pyStripL s.data⟩

/-- Python `str.lower()` (ASCII behaviour). -/
def pyLower (s : String) : String :=
  ⟨s.data.map Char.toLower⟩

/-- Python `str.split(sep)` for a one-character separator: split at every
occurrence of `sep`, keeping empty segments; the empty string yields
one empty segment, as in Python. -/
def splitOnChar (sep : Char) : List Char → List (List Char)
  | [] => [[]]
  | c :: rest =>
    if c == sep then [] :: splitOnChar sep rest
    else
      match splitOnChar sep rest with
      | [] => [[c]]
      | s :: ss => (c :: s) :: ss

/-- Python `s.split(' ')`. -/
def pySplitSpace (s : String) : List String :=
  (splitOnChar ' ' s.data).map (fun cs => ⟨cs⟩)

/-- Python `s.split(',')`, as used on the keywords meta content. -/
def pySplitComma (s : String) : List String :=
  (splitOnChar ',' s.data).map (fun cs => ⟨cs⟩)

/-- One word candidate normalized as in `filter_content`:
`w.strip().replace(',', '').replace('.', '').lower()`. -/
def normalizeWord (w : String) : String :=
  ⟨(((pyStripL w.data).filter (fun c => c != ',')).filter (fun c => c != '.')).map
    Char.toLower⟩

/-! ## The comment regular expression

`is_visible` runs `re.match('<!--.*-->', str(element))`: a match anchored
at the START of the string only (`re.match`), with `.` not matching a
newline.  The match succeeds exactly when the text begins with `<!--`,
followed by a run of non-newline characters, followed by `-->`, with
anything at all allowed after. -/

/-- Does the list begin with the three characters of the closing
delimiter of an HTML comment. -/
def hasDashDashGt (cs : List Char) : Bool :=
  match cs with
  | c1 :: c2 :: c3 :: _ => c1 == '-' && c2 == '-' && c3 == '>'
  | _ => false

/-- Scanner for the `.*-->` part of the pattern: succeed as soon as the
closing delimiter starts, fail upon a newline (which `.` cannot match)
or the end of the string. -/
def commentScan : List Char → Bool
  | [] => false
  | c :: rest =>
    if hasDashDashGt (c :: rest) then true
    else if c == '\n' then false
    else commentScan rest

/-- `re.match('<!--.*-->', s)` truthiness. -/
def matchesCommentRe (s : String) : Bool :=
  match s.data with
  | c1 :: c2 :: c3 :: c4 :: rest =>
    c1 == '<' && c2 == '!' && c3 == '-' && c4 == '-' && commentScan rest
  | _ => false

/-! ## Document model (external collaborator boundary)

BeautifulSoup is the external Document Model; the pipeline only ever asks
a text node for its raw text (`str(element)`) and its parent's tag name
(`element.parent.name`, which raises `AttributeError` when the parent is
`None` — modelled by `parentName = none`). -/

/-- A text node of the parsed document: its raw text and the tag name of
its enclosing element (`none` when the node is detached and has no
parent). -/
structure TextNode where
  text : String
  parentName : Option String
  deriving DecidableEq

/-- The ignore list of `is_visible`. -/
def ignoreTags : List String :=
  ["head", "title", "style", "script", "[document]"]

/-- `is_visible(element)`.  `element.parent.name` raises `AttributeError`
when the parent is `None`, modelled by returning `none`; otherwise the
parent tag is tested against the ignore list and the raw text against the
comment pattern. -/
def is_visible (element : TextNode) : Option Bool :=
  match element.parentName with
  | none => none
  | some pname =>
    if ignoreTags.contains pname then some false
    else if matchesCommentRe element.text then some false
    else some true

/-! ## Text extraction (`filter_content`) -/

/-- Python `filter(content_filter, page_text)` when the callback may raise
(`none`): the first raised exception aborts the whole iteration. -/
def filterExc {α : Type} (p : α → Option Bool) : List α → Option (List α)
  | [] => some []
  | x :: xs => do
    let b ← p x
    let rest ← filterExc p xs
    pure (if b then x :: rest else rest)

/-- `filter_content(soup, content_filter)`: filter the text nodes through
the callback, then for every surviving row whose stripped text is
non-empty, split the stripped text on single spaces and append the
normalized candidates (empty ones included) to the word list. -/
def filter_content (page_text : List TextNode) (content_filter : TextNode → Option Bool) :
    Option (List String) := do
  let visible_text ← filterExc content_filter page_text
  pure (visible_text.foldl
    (fun word_list row =>
      if pyStrip row.text != "" then
        word_list ++ (pySplitSpace (pyStrip row.text)).map normalizeWord
      else word_list)
    [])

/-! ## Word tally (`word_tally`) -/

/-- Python `dict.get(word)`: the value at the first matching key, if any. -/
def dictGet (d : List (String × Nat)) (w : String) : Option Nat :=
  match d with
  | [] => none
  | (k, v) :: rest => if k == w then some v else dictGet rest w

/-- Python `dict[word] = v`: update the existing entry in place, else
append a new entry (dicts preserve insertion order). -/
def dictSet (d : List (String × Nat)) (w : String) (v : Nat) : List (String × Nat) :=
  match d with
  | [] => [(w, v)]
  | (k, x) :: rest => if k == w then (k, v) :: rest else (k, x) :: dictSet rest w v

/-- One iteration of the `word_tally` loop:
`if not word_dict.get(word): word_dict[word] = 1 else: word_dict[word] += 1`
(`not` sees both a missing key and a zero count as falsy). -/
def tallyStep (word_dict : List (String × Nat)) (word : String) : List (String × Nat) :=
  if (dictGet word_dict word).getD 0 == 0 then dictSet word_dict word 1
  else dictSet word_dict word ((dictGet word_dict word).getD 0 + 1)

/-- `word_tally(word_list)`. -/
def word_tally (word_list : List String) : List (String × Nat) :=
  word_list.foldl tallyStep []

/-- The count the tally holds for a word (0 when absent). -/
def getCount (d : List (String × Nat)) (w : String) : Nat :=
  (dictGet d w).getD 0

/-- The sum of all counts of a tally. -/
def sumCounts (d : List (String × Nat)) : Nat :=
  (d.map Prod.snd).sum

/-- The subsequence of first occurrences of a token list, given the
tokens already seen: the order in which a Python dict built by the tally
loop acquires its keys. -/
def firstOccurrences (seen : List String) : List String → List String
  | [] => []
  | w :: ws =>
    if seen.contains w then firstOccurrences seen ws
    else w :: firstOccurrences (seen ++ [w]) ws

/-! ## Ranking (`run_report` word summary) -/

/-- One entry of `word_count_list`: the dict
`{'word': word, 'count': count}` built per tally item. -/
structure WordCount where
  word : String
  count : Nat
  deriving DecidableEq

/-- `[{'word': word, 'count': count} for word, count in word_dict.items()]`. -/
def word_count_list (word_dict : List (String × Nat)) : List WordCount :=
  word_dict.map (fun p => ⟨p.1, p.2⟩)

/-- Stable insertion before the first entry whose count is not larger:
the building block of the model of Python
`sorted(word_count_list, key=lambda k: k['count'], reverse=True)`. -/
def insertByCount (x : WordCount) : List WordCount → List WordCount
  | [] => [x]
  | y :: ys => if y.count > x.count then y :: insertByCount x ys else x :: y :: ys

/-- Python `sorted(..., key=lambda k: k['count'], reverse=True)`: the
unique permutation sorted by non-increasing count in which entries of
equal count keep their original relative order (Python's sort is stable). -/
def sortByCountDesc : List WordCount → List WordCount
  | [] => []
  | x :: xs => insertByCount x (sortByCountDesc xs)

/-- The ranked list printed by `run_report`:
`sorted(word_count_list, key=lambda k: k['count'], reverse=True)[:5]`. -/
def top_five (word_dict : List (String × Nat)) : List WordCount :=
  (sortByCountDesc (word_count_list word_dict)).take 5

/-! ## Metadata (`get_meta`) and keyword reconciliation -/

/-- A meta tag as the pipeline sees it: its `name` attribute and its
`content` attribute, either possibly absent. -/
structure MetaTag where
  name : Option String
  content : Option String
  deriving DecidableEq

/-- `get_meta(soup)`: collect every meta tag, and for each tag whose
`name` attribute equals `keywords`, append the comma-split of its
`content` attribute (`meta_tag.get('content', '')` defaults to the empty
string) to the keyword list. -/
def get_meta (meta_tags : List MetaTag) : List MetaTag × List String :=
  meta_tags.foldl
    (fun acc meta_tag =>
      (acc.1 ++ [meta_tag],
       if meta_tag.name == some "keywords" then
         acc.2 ++ pySplitComma (meta_tag.content.getD "")
       else acc.2))
    ([], [])

/-- The keywords-not-in-content loop of `run_report`: for each keyword, if
`keyword.lower().strip() not in wordlist`, report `keyword.strip()`. -/
def keywords_not_in_content (keywords : List String) (wordlist : List String) :
    List String :=
  keywords.foldl
    (fun acc keyword =>
      if wordlist.contains (pyStrip (pyLower keyword)) then acc
      else acc ++ [pyStrip keyword])
    []

/-! ## `run_report` -/

/-- An anchor element as printed: `link.string` and `link.get('href')`. -/
structure Hyperlink where
  text : Option String
  href : Option String
  deriving DecidableEq

/-- The parsed page, at the Document Model (BeautifulSoup) boundary.
`title` is `none` when the document has no `title` element; it is
`some s` when one exists, with `s` the value of its `.string` attribute
(itself `none` when the element has no single string child). -/
structure Page where
  title : Option (Option String)
  metaTags : List MetaTag
  textNodes : List TextNode
  links : List Hyperlink
  deriving DecidableEq

/-- The fetched response as `run_report` consumes it: the parsed page and
the integer value of the `Content-Length` header, when declared. -/
structure Response where
  page : Page
  contentLength : Option Nat
  deriving DecidableEq

/-- The page-size computation of `run_report`:
`size = int(response.headers.get('Content-Length', 0)) / 1024`, printed
when `size` is nonzero and reported as `not found!` otherwise (`none`).
Python's true division by the power of two 1024 is exact on these
magnitudes, so it is modelled by rational division. -/
def reportSize (contentLength : Option Nat) : Option ℚ :=
  let size : ℚ := (contentLength.getD 0 : ℚ) / 1024
  if size != 0 then some size else none

/-- The report printed by `run_report`, as an immutable bundle. -/
structure Report where
  title : Option String
  size : Option ℚ
  metaTags : List MetaTag
  totalWords : Nat
  uniqueWords : Nat
  topFive : List WordCount
  keywordsNotInContent : List String
  links : List Hyperlink
  deriving DecidableEq

/-- `run_report(response)`.  `page_data.title.string` raises
`AttributeError` when the document has no `title` element
(`page_data.title` is `None`), and `filter_content` propagates any
exception of the visibility callback; both are modelled by `none`. -/
def run_report (response : Response) : Option Report :=
  match response.page.title with
  | none => none
  | some titleStr =>
    let size := reportSize response.contentLength
    let mk := get_meta response.page.metaTags
    match filter_content response.page.textNodes is_visible with
    | none => none
    | some wordlist =>
      let word_dict := word_tally wordlist
      some
        { title := titleStr
          size := size
          metaTags := mk.1
          totalWords := wordlist.length
          uniqueWords := word_dict.length
          topFive := top_five word_dict
          keywordsNotInContent := keywords_not_in_content mk.2 wordlist
          links := response.page.links }

/-- The token sequence of a page as §4.2 of the specification describes
it: for every text node that the classifier accepts and whose stripped
text is non-empty, the normalized candidates of the single-space split of
the stripped text, in document order, empty candidates included. -/
def specTokens (page_text : List TextNode) : List String :=
  page_text.flatMap
    (fun n =>
      if is_visible n = some true ∧ pyStrip n.text ≠ "" then
        (pySplitSpace (pyStrip n.text)).map normalizeWord
      else [])

/-! ## Lemmas: the word tally -/

theorem tallyStep_cons_self (k : String) (x : Nat) (rest : List (String × Nat)) :
    tallyStep ((k, x) :: rest) k = (k, if x = 0 then 1 else x + 1) :: rest := by
  simp [tallyStep, dictGet, dictSet]
  split <;> simp

theorem tallyStep_cons_ne (k : String) (x : Nat) (rest : List (String × Nat))
    (w : String) (h : k ≠ w) :
    tallyStep ((k, x) :: rest) w = (k, x) :: tallyStep rest w := by
  simp [tallyStep, dictGet, dictSet, h]
  split <;> simp

theorem sumCounts_tallyStep (d : List (String × Nat)) (w : String) :
    sumCounts (tallyStep d w) = sumCounts d + 1 := by
  induction d with
  | nil => simp [tallyStep, dictGet, dictSet, sumCounts]
  | cons p rest ih =>
    obtain ⟨k, x⟩ := p
    by_cases h : k = w
    · subst h
      rw [tallyStep_cons_self]
      simp [sumCounts]
      split <;> omega
    · rw [tallyStep_cons_ne k x rest w h]
      simp [sumCounts] at ih ⊢
      omega

theorem getCount_cons_ne (k : String) (x : Nat) (rest : List (String × Nat))
    (v : String) (h : k ≠ v) :
    getCount ((k, x) :: rest) v = getCount rest v := by
  simp [getCount, dictGet, h]

theorem getCount_cons_self (k : String) (x : Nat) (rest : List (String × Nat)) :
    getCount ((k, x) :: rest) k = x := by
  simp [getCount, dictGet]

theorem getCount_tallyStep_self (d : List (String × Nat)) (w : String) :
    getCount (tallyStep d w) w = getCount d w + 1 := by
  induction d with
  | nil => simp [tallyStep, getCount, dictGet, dictSet]
  | cons p rest ih =>
    obtain ⟨k, x⟩ := p
    by_cases h : k = w
    · subst h
      rw [tallyStep_cons_self, getCount_cons_self, getCount_cons_self]
      split <;> omega
    · rw [tallyStep_cons_ne k x rest w h, getCount_cons_ne k x _ w h,
        getCount_cons_ne k x _ w h]
      exact ih

theorem getCount_tallyStep_other (d : List (String × Nat)) (w v : String)
    (h : v ≠ w) :
    getCount (tallyStep d w) v = getCount d v := by
  induction d with
  | nil => simp [tallyStep, getCount, dictGet, dictSet, Ne.symm h]
  | cons p rest ih =>
    obtain ⟨k, x⟩ := p
    by_cases hk : k = w
    · subst hk
      rw [tallyStep_cons_self, getCount_cons_ne k _ _ v (Ne.symm h),
        getCount_cons_ne k x _ v (Ne.symm h)]
    · rw [tallyStep_cons_ne k x rest w hk]
      by_cases hv : k = v
      · subst hv
        rw [getCount_cons_self, getCount_cons_self]
      · rw [getCount_cons_ne k x _ v hv, getCount_cons_ne k x _ v hv]
        exact ih

theorem getCount_tallyStep_le (d : List (String × Nat)) (w v : String) :
    getCount d v ≤ getCount (tallyStep d w) v := by
  by_cases h : v = w
  · subst h; rw [getCount_tallyStep_self]; omega
  · rw [getCount_tallyStep_other d w v h]

theorem getCount_foldl_le (ws : List String) (d : List (String × Nat)) (w : String) :
    getCount d w ≤ getCount (ws.foldl tallyStep d) w := by
  induction ws generalizing d with
  | nil => simp
  | cons a rest ih =>
    simp only [List.foldl_cons]
    exact le_trans (getCount_tallyStep_le d a w) (ih (tallyStep d a))

theorem getCount_foldl_of_mem (ws : List String) (d : List (String × Nat))
    (w : String) (h : w ∈ ws) :
    1 ≤ getCount (ws.foldl tallyStep d) w := by
  induction ws generalizing d with
  | nil => cases h
  | cons a rest ih =>
    simp only [List.foldl_cons]
    rcases List.mem_cons.mp h with ha | ha
    · subst ha
      refine le_trans ?_ (getCount_foldl_le rest (tallyStep d w) w)
      rw [getCount_tallyStep_self]; omega
    · exact ih (tallyStep d a) ha

theorem sumCounts_foldl (ws : List String) (d : List (String × Nat)) :
    sumCounts (ws.foldl tallyStep d) = sumCounts d + ws.length := by
  induction ws generalizing d with
  | nil => simp
  | cons a rest ih =>
    simp only [List.foldl_cons, List.length_cons]
    rw [ih (tallyStep d a), sumCounts_tallyStep]
    omega

theorem map_fst_dictSet (d : List (String × Nat)) (w : String) (v : Nat) :
    (dictSet d w v).map Prod.fst =
      if (d.map Prod.fst).contains w then d.map Prod.fst
      else d.map Prod.fst ++ [w] := by
  induction d with
  | nil => simp [dictSet]
  | cons p rest ih =>
    obtain ⟨k, x⟩ := p
    by_cases h : k = w
    · subst h; simp [dictSet]
    · have hwk : (w == k) = false := beq_eq_false_iff_ne.mpr (Ne.symm h)
      have hkw : (k == w) = false := beq_eq_false_iff_ne.mpr h
      simp only [dictSet, hkw, List.map_cons, List.contains_cons, hwk,
        Bool.false_or, Bool.false_eq_true, if_false]
      rw [ih]
      split <;> simp

theorem map_fst_tallyStep (d : List (String × Nat)) (w : String) :
    (tallyStep d w).map Prod.fst =
      if (d.map Prod.fst).contains w then d.map Prod.fst
      else d.map Prod.fst ++ [w] := by
  unfold tallyStep
  split <;> exact map_fst_dictSet d w _

theorem map_fst_foldl (ws : List String) (d : List (String × Nat)) :
    (ws.foldl tallyStep d).map Prod.fst =
      d.map Prod.fst ++ firstOccurrences (d.map Prod.fst) ws := by
  induction ws generalizing d with
  | nil => simp [firstOccurrences]
  | cons a rest ih =>
    simp only [List.foldl_cons, firstOccurrences]
    rw [ih (tallyStep d a), map_fst_tallyStep]
    by_cases h : (d.map Prod.fst).contains a
    · rw [if_pos h, if_pos h]
    · rw [if_neg h, if_neg h]
      simp

theorem mem_firstOccurrences (ws : List String) (seen : List String) (w : String) :
    w ∈ firstOccurrences seen ws ↔ (w ∈ ws ∧ w ∉ seen) := by
  induction ws generalizing seen with
  | nil => simp [firstOccurrences]
  | cons a rest ih =>
    simp only [firstOccurrences]
    by_cases h : seen.contains a
    · rw [if_pos h, ih]
      have ha : a ∈ seen := by simpa using h
      constructor
      · rintro ⟨h1, h2⟩; exact ⟨List.mem_cons_of_mem a h1, h2⟩
      · rintro ⟨h1, h2⟩
        rcases List.mem_cons.mp h1 with rfl | h1
        · exact absurd ha h2
        · exact ⟨h1, h2⟩
    · rw [if_neg h]
      have ha : a ∉ seen := by simpa using h
      simp only [List.mem_cons, ih]
      constructor
      · rintro (rfl | ⟨h1, h2⟩)
        · exact ⟨Or.inl rfl, ha⟩
        · simp only [List.mem_append, List.mem_singleton] at h2
          push_neg at h2
          exact ⟨Or.inr h1, h2.1⟩
      · rintro ⟨rfl | h1, h2⟩
        · exact Or.inl rfl
        · by_cases hw : w = a
          · exact Or.inl hw
          · refine Or.inr ⟨h1, ?_⟩
            simp [List.mem_append, h2, hw]

theorem nodup_firstOccurrences (ws : List String) (seen : List String) :
    (firstOccurrences seen ws).Nodup := by
  induction ws generalizing seen with
  | nil => simp [firstOccurrences]
  | cons a rest ih =>
    simp only [firstOccurrences]
    by_cases h : seen.contains a
    · rw [if_pos h]; exact ih seen
    · rw [if_neg h]
      refine List.nodup_cons.mpr ⟨?_, ih (seen ++ [a])⟩
      rw [mem_firstOccurrences]
      rintro ⟨-, h2⟩
      exact h2 (by simp)

/-- C1: for every word list, the tally built by `word_tally` maps each
token present in the list to a count that is at least 1, a tally count
never decreases across a step of the loop, the counts sum to the length
of the list (empty tokens included), and the number of distinct keys of
the tally equals the number of distinct token values. -/
theorem word_tally_spec (ws : List String) :
    (∀ w ∈ ws, 1 ≤ getCount (word_tally ws) w) ∧
    (∀ (d : List (String × Nat)) (w v : String),
      getCount d v ≤ getCount (tallyStep d w) v) ∧
    sumCounts (word_tally ws) = ws.length ∧
    ((word_tally ws).map Prod.fst).Nodup ∧
    (word_tally ws).length = ws.toFinset.card := by
  have hkeys : (word_tally ws).map Prod.fst = firstOccurrences [] ws := by
    simp only [word_tally, map_fst_foldl]
    simp
  refine ⟨?_, ?_, ?_, ?_, ?_⟩
  · intro w hw
    exact getCount_foldl_of_mem ws [] w hw
  · intro d w v
    exact getCount_tallyStep_le d w v
  · simp only [word_tally]
    rw [sumCounts_foldl]
    simp [sumCounts]
  · rw [hkeys]
    exact nodup_firstOccurrences ws []
  · have hlen : (word_tally ws).length = (firstOccurrences [] ws).length := by
      rw [← hkeys, List.length_map]
    rw [hlen, ← List.toFinset_card_of_nodup (nodup_firstOccurrences ws [])]
    congr 1
    ext a
    simp [List.mem_toFinset, mem_firstOccurrences]

/-! ## Lemmas: the ranked top five -/

theorem mem_insertByCount (x y : WordCount) (l : List WordCount) :
    y ∈ insertByCount x l ↔ y = x ∨ y ∈ l := by
  induction l with
  | nil => simp [insertByCount]
  | cons z zs ih =>
    simp only [insertByCount]
    by_cases hgt : z.count > x.count
    · rw [if_pos hgt]
      simp only [List.mem_cons, ih]
      tauto
    · rw [if_neg hgt]
      simp [List.mem_cons]

theorem length_insertByCount (x : WordCount) (l : List WordCount) :
    (insertByCount x l).length = l.length + 1 := by
  induction l with
  | nil => rfl
  | cons z zs ih =>
    simp only [insertByCount]
    by_cases hgt : z.count > x.count
    · rw [if_pos hgt]; simp [ih]
    · rw [if_neg hgt]; simp

theorem length_sortByCountDesc (l : List WordCount) :
    (sortByCountDesc l).length = l.length := by
  induction l with
  | nil => rfl
  | cons x xs ih =>
    simp only [sortByCountDesc]
    rw [length_insertByCount, ih, List.length_cons]

theorem pairwise_insertByCount (x : WordCount) (l : List WordCount)
    (h : List.Pairwise (fun a b => b.count ≤ a.count) l) :
    List.Pairwise (fun a b => b.count ≤ a.count) (insertByCount x l) := by
  induction l with
  | nil => simp [insertByCount]
  | cons y ys ih =>
    rw [List.pairwise_cons] at h
    obtain ⟨hy, hys⟩ := h
    simp only [insertByCount]
    by_cases hgt : y.count > x.count
    · rw [if_pos hgt]
      refine List.pairwise_cons.mpr ⟨?_, ih hys⟩
      intro z hz
      rcases (mem_insertByCount x z ys).mp hz with rfl | hz
      · omega
      · exact hy z hz
    · rw [if_neg hgt]
      refine List.pairwise_cons.mpr ⟨?_, List.pairwise_cons.mpr ⟨hy, hys⟩⟩
      intro z hz
      rcases List.mem_cons.mp hz with rfl | hz
      · omega
      · exact le_trans (hy z hz) (by omega)

theorem pairwise_sortByCountDesc (l : List WordCount) :
    List.Pairwise (fun a b => b.count ≤ a.count) (sortByCountDesc l) := by
  induction l with
  | nil => simp [sortByCountDesc]
  | cons x xs ih =>
    simp only [sortByCountDesc]
    exact pairwise_insertByCount x _ ih

theorem filter_insertByCount_ne (x : WordCount) (l : List WordCount) (c : Nat)
    (hx : x.count ≠ c) :
    (insertByCount x l).filter (fun e => e.count == c) =
      l.filter (fun e => e.count == c) := by
  induction l with
  | nil => simp [insertByCount, hx]
  | cons y ys ih =>
    simp only [insertByCount]
    by_cases hgt : y.count > x.count
    · rw [if_pos hgt, List.filter_cons, List.filter_cons]
      by_cases hy : y.count = c
      · rw [if_pos (by simp [hy]), if_pos (by simp [hy]), ih]
      · rw [if_neg (by simp [hy]), if_neg (by simp [hy]), ih]
    · rw [if_neg hgt, List.filter_cons, if_neg (by simp [hx])]

theorem filter_insertByCount_eq (x : WordCount) (l : List WordCount) (c : Nat)
    (hx : x.count = c)
    (hs : List.Pairwise (fun a b => b.count ≤ a.count) l) :
    (insertByCount x l).filter (fun e => e.count == c) =
      x :: l.filter (fun e => e.count == c) := by
  induction l with
  | nil => simp [insertByCount, hx]
  | cons y ys ih =>
    rw [List.pairwise_cons] at hs
    obtain ⟨hy, hys⟩ := hs
    simp only [insertByCount]
    by_cases hgt : y.count > x.count
    · have hyne : y.count ≠ c := by omega
      rw [if_pos hgt, List.filter_cons, if_neg (by simp [hyne]), ih hys,
        List.filter_cons, if_neg (by simp [hyne])]
    · rw [if_neg hgt, List.filter_cons, if_pos (by simp [hx])]

theorem filter_sortByCountDesc (l : List WordCount) (c : Nat) :
    (sortByCountDesc l).filter (fun e => e.count == c) =
      l.filter (fun e => e.count == c) := by
  induction l with
  | nil => rfl
  | cons x xs ih =>
    simp only [sortByCountDesc]
    by_cases hx : x.count = c
    · rw [filter_insertByCount_eq x _ c hx (pairwise_sortByCountDesc xs), ih,
        List.filter_cons, if_pos (by simp [hx])]
    · rw [filter_insertByCount_ne x _ c hx, ih, List.filter_cons,
        if_neg (by simp [hx])]

/-- C5: for every token sequence, the top-five list taken from the tally
has length `min 5 (unique word count)` (the unique word count being the
number of tally entries) and is ordered by non-increasing count. -/
theorem top_five_spec (ws : List String) :
    (top_five (word_tally ws)).length = min 5 (word_tally ws).length ∧
    List.Pairwise (fun a b => b.count ≤ a.count) (top_five (word_tally ws)) := by
  constructor
  · simp only [top_five]
    rw [List.length_take, length_sortByCountDesc]
    simp [word_count_list]
  · simp only [top_five]
    exact (pairwise_sortByCountDesc _).sublist (List.take_sublist 5 _)

/-- C10: ranking ties are resolved by first occurrence in the token
sequence: the descending sort leaves the entries of any fixed count `c`
in tally order (stability), the tally keys are in first-insertion order,
and the count-`c` entries of the top five form a subsequence of the
count-`c` entries of the tally. -/
theorem tally_rank_ties_first_occurrence (ws : List String) (c : Nat) :
    (sortByCountDesc (word_count_list (word_tally ws))).filter
        (fun e => e.count == c) =
      (word_count_list (word_tally ws)).filter (fun e => e.count == c) ∧
    (word_count_list (word_tally ws)).map (fun e => e.word) =
      firstOccurrences [] ws ∧
    ((top_five (word_tally ws)).filter (fun e => e.count == c)).Sublist
      ((word_count_list (word_tally ws)).filter (fun e => e.count == c)) := by
  refine ⟨filter_sortByCountDesc _ c, ?_, ?_⟩
  · simp only [word_count_list, List.map_map]
    have hcomp :
        ((fun e : WordCount => e.word) ∘ fun p : String × Nat => (⟨p.1, p.2⟩ : WordCount)) =
          Prod.fst := rfl
    rw [hcomp]
    simp only [word_tally, map_fst_foldl]
    simp
  · simp only [top_five]
    refine List.Sublist.trans (List.Sublist.filter _ (List.take_sublist 5 _)) ?_
    rw [filter_sortByCountDesc]

/-! ## Lemmas: the comment pattern -/

theorem hasDashDashGt_iff (cs : List Char) :
    hasDashDashGt cs = true ↔ ∃ t, cs = '-' :: '-' :: '>' :: t := by
  rcases cs with _ | ⟨c1, _ | ⟨c2, _ | ⟨c3, t⟩⟩⟩ <;> simp [hasDashDashGt, and_assoc]

theorem commentScan_iff (cs : List Char) :
    commentScan cs = true ↔
      ∃ a b : List Char, cs = a ++ '-' :: '-' :: '>' :: b ∧ '\n' ∉ a := by
  induction cs with
  | nil =>
    constructor
    · intro h; cases h
    · rintro ⟨a, b, h, -⟩
      rcases a with _ | ⟨a0, as⟩ <;> cases h
  | cons c rest ih =>
    simp only [commentScan]
    by_cases h1 : hasDashDashGt (c :: rest) = true
    · rw [if_pos h1]
      obtain ⟨t, ht⟩ := (hasDashDashGt_iff _).mp h1
      constructor
      · intro _
        exact ⟨[], t, by simpa using ht, by simp⟩
      · intro _; rfl
    · by_cases h2 : c = '\n'
      · rw [if_neg h1, if_pos (beq_iff_eq.mpr h2)]
        constructor
        · intro h; cases h
        · rintro ⟨a, b, heq, hnl⟩
          rcases a with _ | ⟨a0, as⟩
          · exact (h1 ((hasDashDashGt_iff _).mpr ⟨b, heq⟩)).elim
          · injection heq with hc hrest
            subst h2
            have hmem : '\n' ∈ a0 :: as := by
              rw [hc]; exact List.mem_cons_self _ _
            exact (hnl hmem).elim
      · rw [if_neg h1, if_neg (fun hh => h2 (beq_iff_eq.mp hh)), ih]
        constructor
        · rintro ⟨a, b, heq, hnl⟩
          refine ⟨c :: a, b, by simp [heq], ?_⟩
          intro hmem
          rcases List.mem_cons.mp hmem with h | h
          · exact h2 h.symm
          · exact hnl h
        · rintro ⟨a, b, heq, hnl⟩
          rcases a with _ | ⟨a0, as⟩
          · exact absurd ((hasDashDashGt_iff _).mpr ⟨b, heq⟩) h1
          · injection heq with hc hrest
            exact ⟨as, b, hrest, fun hmem => hnl (List.mem_cons_of_mem _ hmem)⟩

theorem matchesCommentRe_iff (s : String) :
    matchesCommentRe s = true ↔
      ∃ a b : List Char,
        s.data = '<' :: '!' :: '-' :: '-' :: (a ++ '-' :: '-' :: '>' :: b) ∧
        '\n' ∉ a := by
  rcases hs : s.data with _ | ⟨c1, _ | ⟨c2, _ | ⟨c3, _ | ⟨c4, rest⟩⟩⟩⟩ <;>
    simp [matchesCommentRe, hs, commentScan_iff, List.cons.injEq, and_assoc]

/-! ## Lemmas: text extraction -/

theorem filterExc_eq {α : Type} (p : α → Option Bool) (l : List α)
    (h : ∀ x ∈ l, (p x).isSome) :
    filterExc p l = some (l.filter (fun x => (p x).getD false)) := by
  induction l with
  | nil => rfl
  | cons x xs ih =>
    obtain ⟨b, hb⟩ := Option.isSome_iff_exists.mp (h x (List.mem_cons_self x xs))
    have ihx := ih (fun y hy => h y (List.mem_cons_of_mem x hy))
    simp only [filterExc, hb, Option.bind_eq_bind, Option.some_bind, ihx,
      List.filter_cons]
    cases b <;> simp

theorem isSome_is_visible (n : TextNode) (h : (n.parentName).isSome) :
    (is_visible n).isSome := by
  rcases hn : n.parentName with _ | p
  · rw [hn] at h; cases h
  · simp only [is_visible, hn]
    split
    · rfl
    · split <;> rfl

theorem foldl_words_append (rows : List TextNode) (acc : List String) :
    rows.foldl
      (fun word_list row =>
        if pyStrip row.text != "" then
          word_list ++ (pySplitSpace (pyStrip row.text)).map normalizeWord
        else word_list)
      acc
    = acc ++ rows.flatMap (fun row =>
        if pyStrip row.text != "" then
          (pySplitSpace (pyStrip row.text)).map normalizeWord
        else []) := by
  induction rows generalizing acc with
  | nil => simp
  | cons r rs ih =>
    simp only [List.foldl_cons]
    by_cases hr : (pyStrip r.text != "") = true
    · rw [if_pos hr, ih]
      have hstep : (r :: rs).flatMap (fun row =>
          if pyStrip row.text != "" then
            (pySplitSpace (pyStrip row.text)).map normalizeWord
          else []) =
          (pySplitSpace (pyStrip r.text)).map normalizeWord ++
            rs.flatMap (fun row =>
              if pyStrip row.text != "" then
                (pySplitSpace (pyStrip row.text)).map normalizeWord
              else []) := by
        rw [List.flatMap_cons, if_pos hr]
      rw [hstep, List.append_assoc]
    · rw [if_neg hr, ih]
      have hstep : (r :: rs).flatMap (fun row =>
          if pyStrip row.text != "" then
            (pySplitSpace (pyStrip row.text)).map normalizeWord
          else []) =
          [] ++ rs.flatMap (fun row =>
            if pyStrip row.text != "" then
              (pySplitSpace (pyStrip row.text)).map normalizeWord
            else []) := by
        rw [List.flatMap_cons, if_neg hr]
      rw [hstep, List.nil_append]

theorem filter_flatMap_eq {α β : Type} (l : List α) (f : α → Bool) (F : α → List β) :
    (l.filter f).flatMap F = l.flatMap (fun x => if f x then F x else []) := by
  induction l with
  | nil => rfl
  | cons x xs ih =>
    rw [List.filter_cons]
    by_cases hx : f x = true
    · rw [if_pos hx, List.flatMap_cons, List.flatMap_cons, if_pos hx, ih]
    · rw [if_neg hx, List.flatMap_cons, if_neg hx, List.nil_append, ih]

theorem specTokens_flatMap (pt : List TextNode) :
    specTokens pt = pt.flatMap (fun n =>
      if (is_visible n).getD false then
        if pyStrip n.text != "" then
          (pySplitSpace (pyStrip n.text)).map normalizeWord
        else []
      else []) := by
  unfold specTokens
  congr 1
  funext n
  rcases hv : is_visible n with _ | b
  · rw [if_neg (by simp [hv])]
    simp [hv]
  · cases b
    · rw [if_neg (by simp [hv])]
      simp [hv]
    · simp only [hv, Option.getD_some, if_true]
      by_cases hs : pyStrip n.text = ""
      · rw [if_neg (by simp [hs]), if_neg (by simp [hs])]
      · rw [if_pos ⟨trivial, hs⟩, if_pos (by simp [hs])]

theorem filter_content_eq (pt : List TextNode)
    (h : ∀ n ∈ pt, (is_visible n).isSome) :
    filter_content pt is_visible = some (specTokens pt) := by
  unfold filter_content
  rw [filterExc_eq is_visible pt h]
  simp only [Option.bind_eq_bind, Option.some_bind]
  congr 1
  rw [foldl_words_append, List.nil_append, filter_flatMap_eq,
    specTokens_flatMap]

/-- C2: for a page whose text nodes all have parents, the extracted word
list is exactly the per-node concatenation of the normalized candidates
(trim, drop commas and periods, lowercase) of the single-space split of
each visible node's stripped text — empty strings included — and the
report's total word count is the length of that token sequence. -/
theorem filter_content_token_sequence (r : Response) (t : Option String)
    (h : ∀ n ∈ r.page.textNodes, (n.parentName).isSome)
    (ht : r.page.title = some t) :
    filter_content r.page.textNodes is_visible =
      some (specTokens r.page.textNodes) ∧
    run_report r = some
      { title := t
        size := reportSize r.contentLength
        metaTags := (get_meta r.page.metaTags).1
        totalWords := (specTokens r.page.textNodes).length
        uniqueWords := (word_tally (specTokens r.page.textNodes)).length
        topFive := top_five (word_tally (specTokens r.page.textNodes))
        keywordsNotInContent :=
          keywords_not_in_content (get_meta r.page.metaTags).2
            (specTokens r.page.textNodes)
        links := r.page.links } := by
  have hfc := filter_content_eq r.page.textNodes
    (fun n hn => isSome_is_visible n (h n hn))
  refine ⟨hfc, ?_⟩
  simp only [run_report, ht, hfc]

/-- Witness for C2 at a concrete page: one visible node `a  b.` under a
paragraph tag. -/
theorem filter_content_token_sequence_witness :
    (∀ n ∈ [(⟨"a  b.", some "p"⟩ : TextNode)], (n.parentName).isSome) ∧
    ((⟨⟨some (some "T"), [], [⟨"a  b.", some "p"⟩], []⟩, some 2048⟩ :
        Response).page.title = some (some "T")) ∧
    (filter_content [(⟨"a  b.", some "p"⟩ : TextNode)] is_visible =
        some (specTokens [(⟨"a  b.", some "p"⟩ : TextNode)]) ∧
      run_report
          (⟨⟨some (some "T"), [], [⟨"a  b.", some "p"⟩], []⟩, some 2048⟩ :
            Response) =
        some
          { title := some "T"
            size := reportSize (some 2048)
            metaTags := (get_meta []).1
            totalWords := (specTokens [(⟨"a  b.", some "p"⟩ : TextNode)]).length
            uniqueWords :=
              (word_tally (specTokens [(⟨"a  b.", some "p"⟩ : TextNode)])).length
            topFive :=
              top_five (word_tally (specTokens [(⟨"a  b.", some "p"⟩ : TextNode)]))
            keywordsNotInContent :=
              keywords_not_in_content (get_meta []).2
                (specTokens [(⟨"a  b.", some "p"⟩ : TextNode)])
            links := [] }) :=
  ⟨by decide, rfl,
    filter_content_token_sequence
      (⟨⟨some (some "T"), [], [⟨"a  b.", some "p"⟩], []⟩, some 2048⟩ : Response)
      (some "T") (by decide) rfl⟩

/-- C9 counterexample: the single visible text `a  b` (double space)
yields the token sequence `["a", "", "b"]` — the empty token produced by
the empty split segment is present in the extracted sequence, so empty
tokens are not discarded. -/
theorem empty_token_in_sequence_cex :
    filter_content [(⟨"a  b", some "p"⟩ : TextNode)] is_visible =
      some ["a", "", "b"] ∧
    "" ∈ (["a", "", "b"] : List String) := by
  exact ⟨rfl, by decide⟩

/-- C9 (amended): empty tokens after normalization are retained, not
discarded: every normalized candidate of every visible non-blank text
node — the empty candidates included — is a member of the extracted
token sequence. -/
theorem empty_tokens_retained (pt : List TextNode) (n : TextNode) (w : String)
    (hpt : ∀ m ∈ pt, (m.parentName).isSome) (hn : n ∈ pt)
    (hv : is_visible n = some true) (hs : pyStrip n.text ≠ "")
    (hw : w ∈ pySplitSpace (pyStrip n.text)) :
    ∃ ts, filter_content pt is_visible = some ts ∧ normalizeWord w ∈ ts := by
  refine ⟨specTokens pt,
    filter_content_eq pt (fun m hm => isSome_is_visible m (hpt m hm)), ?_⟩
  unfold specTokens
  rw [List.mem_flatMap]
  exact ⟨n, hn, by rw [if_pos ⟨hv, hs⟩]; exact List.mem_map_of_mem _ hw⟩

/-- Witness for the amended C9: the empty split segment of `a  b`
normalizes to the empty token and appears in the output. -/
theorem empty_tokens_retained_witness :
    ((∀ m ∈ [(⟨"a  b", some "p"⟩ : TextNode)], (m.parentName).isSome) ∧
      (⟨"a  b", some "p"⟩ : TextNode) ∈ [(⟨"a  b", some "p"⟩ : TextNode)] ∧
      is_visible ⟨"a  b", some "p"⟩ = some true ∧
      pyStrip (⟨"a  b", some "p"⟩ : TextNode).text ≠ "" ∧
      "" ∈ pySplitSpace (pyStrip (⟨"a  b", some "p"⟩ : TextNode).text)) ∧
    (∃ ts, filter_content [(⟨"a  b", some "p"⟩ : TextNode)] is_visible = some ts ∧
      normalizeWord "" ∈ ts) :=
  ⟨⟨by decide, by decide, by decide, by decide, by decide⟩,
    empty_tokens_retained [(⟨"a  b", some "p"⟩ : TextNode)]
      (⟨"a  b", some "p"⟩ : TextNode) "" (by decide) (by decide) (by decide)
      (by decide) (by decide)⟩

/-- C7 (the code at the failing input): on a fetched page with no
`title` element, `run_report` evaluates `page_data.title.string` with
`page_data.title = None` and raises `AttributeError` — no report at all
is produced, rather than one marking the title as not found. -/
theorem run_report_no_title_raises :
    run_report ⟨⟨none, [], [⟨"body text", some "p"⟩], []⟩, some 2048⟩ =
      none := rfl

/-- C8 counterexample: a response that DOES declare `Content-Length`,
with value 0, is reported as size not found (`none`) instead of the
declared byte count divided by 1024. -/
theorem reportSize_declared_zero_cex :
    reportSize (some 0) = none := by
  simp [reportSize]

/-- C8 (amended): a missing `Content-Length`, or a declared value of 0
(whose quotient by 1024 is the falsy 0.0), reports the size as not
found; any declared nonzero byte count is reported as that count divided
by 1024. -/
theorem reportSize_amended (n : Nat) (h : n ≠ 0) :
    reportSize none = none ∧
    reportSize (some n) = some ((n : ℚ) / 1024) := by
  have hq : ((n : ℚ) / 1024) ≠ 0 :=
    div_ne_zero (by exact_mod_cast h) (by norm_num)
  constructor
  · simp [reportSize]
  · simp [reportSize, hq]

/-- Witness for the amended C8 at 2048 declared bytes. -/
theorem reportSize_amended_witness :
    (2048 ≠ 0) ∧
    (reportSize none = none ∧
      reportSize (some 2048) = some ((2048 : ℚ) / 1024)) :=
  ⟨by decide, reportSize_amended 2048 (by decide)⟩

/-! ## Lemmas: metadata and keyword reconciliation -/

theorem get_meta_fold (tags : List MetaTag) (a : List MetaTag) (k : List String) :
    tags.foldl
      (fun acc meta_tag =>
        (acc.1 ++ [meta_tag],
         if meta_tag.name == some "keywords" then
           acc.2 ++ pySplitComma (meta_tag.content.getD "")
         else acc.2))
      (a, k)
    = (a ++ tags,
       k ++ tags.flatMap (fun t =>
         if t.name == some "keywords" then pySplitComma (t.content.getD "")
         else [])) := by
  induction tags generalizing a k with
  | nil => simp
  | cons t ts ih =>
    simp only [List.foldl_cons, List.flatMap_cons]
    rw [ih]
    by_cases hn : (t.name == some "keywords") = true
    · rw [if_pos hn, if_pos hn]
      simp
    · rw [if_neg hn, if_neg hn]
      simp

theorem keywords_fold (kws ws : List String) (acc : List String) :
    kws.foldl
      (fun acc keyword =>
        if ws.contains (pyStrip (pyLower keyword)) then acc
        else acc ++ [pyStrip keyword])
      acc
    = acc ++
        (kws.filter fun k => !ws.contains (pyStrip (pyLower k))).map pyStrip := by
  induction kws generalizing acc with
  | nil => simp
  | cons k ks ih =>
    simp only [List.foldl_cons, List.filter_cons]
    by_cases hc : (ws.contains (pyStrip (pyLower k))) = true
    · rw [if_pos hc, ih, if_neg (by simpa using hc)]
    · rw [if_neg hc, ih, if_pos (by simpa using hc), List.map_cons]
      simp

/-- C4: `get_meta` keeps every meta tag in document order and builds the
keyword list by splitting each keywords-named tag's content attribute
(absent content read as the empty string) on commas, untrimmed,
concatenated in document order; an empty content contributes exactly one
empty-string keyword; and the reconciliation loop reports, in keyword
order with duplicates preserved and displayed stripped, exactly the
keywords whose lowercased-then-trimmed form is not a member of the token
sequence. -/
theorem get_meta_keyword_reconciliation (tags : List MetaTag)
    (kws ws : List String) :
    (get_meta tags).1 = tags ∧
    (get_meta tags).2 = tags.flatMap (fun t =>
      if t.name == some "keywords" then pySplitComma (t.content.getD "")
      else []) ∧
    pySplitComma "" = [""] ∧
    keywords_not_in_content kws ws =
      (kws.filter fun k => decide (pyStrip (pyLower k) ∉ ws)).map pyStrip := by
  refine ⟨?_, ?_, rfl, ?_⟩
  · simp only [get_meta]
    rw [get_meta_fold]
    simp
  · simp only [get_meta]
    rw [get_meta_fold]
    simp
  · simp only [keywords_not_in_content]
    rw [keywords_fold, List.nil_append]
    have hpred : (fun k => !ws.contains (pyStrip (pyLower k))) =
        (fun k => decide (pyStrip (pyLower k) ∉ ws)) := by
      funext k
      rw [show ws.contains (pyStrip (pyLower k)) =
            decide (pyStrip (pyLower k) ∈ ws) from List.elem_eq_mem _ _,
        decide_not]
    rw [hpred]

/-- C3 counterexample: on the text `<!--c--> tail`, whose parent tag `p`
is not in the ignore set and which does NOT end with `-->`, the
classifier nevertheless returns false — `re.match` is anchored at the
start of the string only, so the claim's "ends with `-->`" reading of
the pattern is wrong. -/
theorem is_visible_end_anchor_cex :
    is_visible ⟨"<!--c--> tail", some "p"⟩ = some false ∧
    ignoreTags.contains "p" = false ∧
    ¬ List.IsSuffix ['-', '-', '>'] ("<!--c--> tail").data := by
  refine ⟨by decide, by decide, by decide⟩

/-- C3 (amended): for a text node with a parent element, the classifier
returns false when the parent tag is in the ignore set
`{head, title, style, script, [document]}`; otherwise false when the raw
text BEGINS with an HTML comment — `<!--`, then a run of non-newline
characters, then `-->`, with arbitrary trailing text allowed (the
`re.match` pattern is anchored only at the start and `.` does not match
a newline); in every other case it returns true.  The second conjunct
characterises the pattern exactly. -/
theorem is_visible_cases (t p : String) :
    is_visible ⟨t, some p⟩ =
      some (if ignoreTags.contains p then false
            else if matchesCommentRe t then false else true) ∧
    (matchesCommentRe t = true ↔
      ∃ a b : List Char,
        t.data = '<' :: '!' :: '-' :: '-' :: (a ++ '-' :: '-' :: '>' :: b) ∧
        '\n' ∉ a) := by
  constructor
  · simp only [is_visible]
    by_cases h1 : ignoreTags.contains p
    · rw [if_pos h1, if_pos h1]
    · rw [if_neg h1, if_neg h1]
      by_cases h2 : matchesCommentRe t
      · rw [if_pos h2, if_pos h2]
      · rw [if_neg h2, if_neg h2]
  · exact matchesCommentRe_iff t

/-- C6 (the code at the failing input): for a text node with no parent
the classifier evaluates `element.parent.name` with `parent = None` and
raises `AttributeError` instead of returning a boolean — the embedding
yields `none`. -/
theorem is_visible_detached_raises :
    is_visible ⟨"hello", none⟩ = none := rfl
